import Mathlib

/-!
Verification of the fixed-point binary encoder `float_to_bin_str` from
`src/testbench/bilinear_xform_engine_tb/test_transformations/generate_mappings.py`.

Python bit strings of `'0'`/`'1'` characters are modelled as `List Char`
(most-significant character first, as in the source), and the real-valued
input is modelled as `ℚ`, the spec's arbitrary-precision signed rational.
-/

namespace GenerateMappings

/-- The magnitude-search loop for negative inputs (source line 27):
`while (-(2**bit_idx)) > number: bit_idx += 1`. -/
def searchNeg (number : ℚ) (bit_idx : ℕ) : ℕ :=
  if h : -((2:ℚ) ^ bit_idx) > number then searchNeg number (bit_idx + 1) else bit_idx
termination_by ⌈-number⌉₊ + 1 - bit_idx
decreasing_by
  have h1 : (2:ℚ) ^ bit_idx < -number := by linarith
  have h2 : (bit_idx : ℚ) < (2:ℚ) ^ bit_idx := by exact_mod_cast Nat.lt_two_pow bit_idx
  have h3 : (bit_idx : ℚ) < ((⌈-number⌉₊ : ℕ) : ℚ) :=
    lt_of_lt_of_le (h2.trans h1) (Nat.le_ceil _)
  have h4 : bit_idx < ⌈-number⌉₊ := by exact_mod_cast h3
  omega

/-- The magnitude-search loop for non-negative inputs (source lines 30-31):
`while (2**bit_idx) <= number: bit_idx += 1` (the subsequent `bit_idx -= 1`
of line 32 is applied at the call site). -/
def searchUp (number : ℚ) (bit_idx : ℕ) : ℕ :=
  if h : (2:ℚ) ^ bit_idx ≤ number then searchUp number (bit_idx + 1) else bit_idx
termination_by ⌈number⌉₊ + 1 - bit_idx
decreasing_by
  have h2 : (bit_idx : ℚ) < (2:ℚ) ^ bit_idx := by exact_mod_cast Nat.lt_two_pow bit_idx
  have h3 : (bit_idx : ℚ) < ((⌈number⌉₊ : ℕ) : ℚ) :=
    lt_of_lt_of_le (h2.trans_le h) (Nat.le_ceil _)
  have h4 : bit_idx < ⌈number⌉₊ := by exact_mod_cast h3
  omega

/-- The greedy bit-accumulation loop (source lines 40-47 and 49-56): while
`bit_idx ≥ lo`, tentatively add `2^bit_idx` to the accumulator `acc`; if the sum
stays `≤ number` emit `'1'` and keep it, else emit `'0'` and discard it, then
decrement `bit_idx`.  The integer-part loop is the instance `lo = 0`
(`while bit_idx > -1`), the fractional-part loop is the instance
`lo = -frac_bits` (`while bit_idx >= -frac_bits`).  Returns the final
`bit_idx`, the final accumulator, and the emitted characters appended to `s`. -/
def gloop (number : ℚ) (lo : ℤ) (bit_idx : ℤ) (acc : ℚ) (s : List Char) :
    ℤ × ℚ × List Char :=
  if h : bit_idx ≥ lo then
    if acc + (2:ℚ) ^ bit_idx ≤ number then
      gloop number lo (bit_idx - 1) (acc + (2:ℚ) ^ bit_idx) (s ++ ['1'])
    else
      gloop number lo (bit_idx - 1) acc (s ++ ['0'])
  else (bit_idx, acc, s)
termination_by (bit_idx + 1 - lo).toNat
decreasing_by
  all_goals omega

/-- Source lines 17-56 of `float_to_bin_str`: sign test, magnitude search,
sign-bit emission, and the two greedy accumulation loops, producing the raw
(not yet width-adjusted) integer bit string and the fractional bit string. -/
def rawParts (number : ℚ) (frac_bits : ℕ) : List Char × List Char :=
  if number < 0 then
    let bit_idx : ℤ := (searchNeg number 0 : ℤ)
    let r1 := gloop number 0 (bit_idx - 1) (-((2:ℚ) ^ bit_idx)) ['1']
    let r2 := gloop number (-(frac_bits : ℤ)) r1.1 r1.2.1 []
    (r1.2.2, r2.2.2)
  else
    let bit_idx : ℤ := (searchUp number 0 : ℤ) - 1
    let r1 := gloop number 0 bit_idx 0 []
    let r2 := gloop number (-(frac_bits : ℤ)) r1.1 r1.2.1 []
    (r1.2.2, r2.2.2)

/-- Source lines 58-66: adjust the integer bit string to exactly `int_bits`
characters, left-padding with the sign character when it is too short and
dropping the most-significant extra characters when it is too long. -/
def adjustInt (negative : Bool) (int_bits : ℕ) (int_bits_str : List Char) : List Char :=
  let int_str_len := int_bits_str.length
  let s1 :=
    if int_str_len < int_bits then
      (if negative then List.replicate (int_bits - int_str_len) '1'
       else List.replicate (int_bits - int_str_len) '0') ++ int_bits_str
    else int_bits_str
  if int_str_len > int_bits then s1.drop (int_str_len - int_bits) else s1

/-- Source lines 16-68: the fixed-point encoder `float_to_bin_str`, returning
the integer-part and fractional-part bit strings. -/
def float_to_bin_str (number : ℚ) (int_bits : ℕ := 16) (frac_bits : ℕ := 8) :
    List Char × List Char :=
  (adjustInt (decide (number < 0)) int_bits (rawParts number frac_bits).1,
   (rawParts number frac_bits).2)

/-- The value of a bit string read MSB-first as an unsigned binary number. -/
def bitsVal (s : List Char) : ℤ :=
  s.foldl (fun a c => 2 * a + (if c = '1' then 1 else 0)) 0

/-- Standard two's-complement fixed-point decode of a concatenated bit string
with `frac_bits` fractional bits, following the spec's round-trip property
(§8): the string read as an unsigned number, minus `2^length` when the leading
(sign) bit is set, scaled down by `2^frac_bits`. -/
def twosComplementDecode (s : List Char) (frac_bits : ℕ) : ℚ :=
  match s with
  | [] => 0
  | c :: _ =>
      ((bitsVal s : ℚ) - (if c = '1' then (2:ℚ) ^ s.length else 0)) / (2:ℚ) ^ frac_bits

/-! ### Properties of the magnitude-search loops -/

lemma searchNeg_post (v : ℚ) (i : ℕ) : -((2:ℚ) ^ searchNeg v i) ≤ v := by
  induction i using searchNeg.induct v with
  | case1 i h ih => rw [searchNeg]; simp only [h, dite_true]; exact ih
  | case2 i h => rw [searchNeg]; simp only [h, dite_false]; linarith [not_lt.mp h]

lemma searchNeg_min (v : ℚ) (i : ℕ) :
    ∀ j, i ≤ j → j < searchNeg v i → v < -((2:ℚ) ^ j) := by
  induction i using searchNeg.induct v with
  | case1 i h ih =>
      intro j hij hj
      rw [searchNeg] at hj; simp only [h, dite_true] at hj
      rcases Nat.eq_or_lt_of_le hij with rfl | hlt
      · exact h
      · exact ih j hlt hj
  | case2 i h =>
      intro j hij hj
      rw [searchNeg] at hj; simp only [h, dite_false] at hj
      omega

lemma searchNeg_le_of (v : ℚ) (m : ℕ) (h : -((2:ℚ) ^ m) ≤ v) : searchNeg v 0 ≤ m := by
  by_contra hc
  exact absurd h (not_le.mpr (searchNeg_min v 0 m (Nat.zero_le m) (not_le.mp hc)))

lemma searchUp_post (v : ℚ) (i : ℕ) : v < (2:ℚ) ^ searchUp v i := by
  induction i using searchUp.induct v with
  | case1 i h ih => rw [searchUp]; simp only [h, dite_true]; exact ih
  | case2 i h => rw [searchUp]; simp only [h, dite_false]; linarith [not_le.mp h]

lemma searchUp_min (v : ℚ) (i : ℕ) :
    ∀ j, i ≤ j → j < searchUp v i → (2:ℚ) ^ j ≤ v := by
  induction i using searchUp.induct v with
  | case1 i h ih =>
      intro j hij hj
      rw [searchUp] at hj; simp only [h, dite_true] at hj
      rcases Nat.eq_or_lt_of_le hij with rfl | hlt
      · exact h
      · exact ih j hlt hj
  | case2 i h =>
      intro j hij hj
      rw [searchUp] at hj; simp only [h, dite_false] at hj
      omega

lemma searchUp_le_of (v : ℚ) (m : ℕ) (h : v < (2:ℚ) ^ m) : searchUp v 0 ≤ m := by
  by_contra hc
  exact absurd h (not_lt.mpr (searchUp_min v 0 m (Nat.zero_le m) (not_le.mp hc)))

lemma searchUp_pos (v : ℚ) (h : 1 ≤ v) : 1 ≤ searchUp v 0 := by
  by_contra hc
  have h0 : searchUp v 0 = 0 := by omega
  have := searchUp_post v 0
  rw [h0] at this
  simp at this
  linarith

lemma searchUp_eq_zero (v : ℚ) (h : v < 1) : searchUp v 0 = 0 := by
  have := searchUp_le_of v 0 (by simpa using h)
  omega

/-! ### Properties of `bitsVal` -/

lemma bitsVal_foldl (a : ℤ) (t : List Char) :
    t.foldl (fun a c => 2 * a + (if c = '1' then 1 else 0)) a
      = a * 2 ^ t.length + bitsVal t := by
  induction t generalizing a with
  | nil => simp [bitsVal]
  | cons c t ih =>
      simp only [List.foldl_cons, List.length_cons, bitsVal] at *
      rw [ih, ih (2 * 0 + if c = '1' then 1 else 0)]
      ring

lemma bitsVal_cons (c : Char) (t : List Char) :
    bitsVal (c :: t) = (if c = '1' then 1 else 0) * 2 ^ t.length + bitsVal t := by
  have h : bitsVal (c :: t)
      = t.foldl (fun a c => 2 * a + (if c = '1' then 1 else 0))
          (2 * 0 + if c = '1' then 1 else 0) := rfl
  rw [h, bitsVal_foldl]
  ring

lemma bitsVal_append (s t : List Char) :
    bitsVal (s ++ t) = bitsVal s * 2 ^ t.length + bitsVal t := by
  simp only [bitsVal, List.foldl_append]
  exact bitsVal_foldl _ t

lemma bitsVal_nonneg (s : List Char) : 0 ≤ bitsVal s := by
  induction s with
  | nil => simp [bitsVal]
  | cons c t ih =>
      rw [bitsVal_cons]
      have : (0:ℤ) ≤ (if c = '1' then 1 else 0) := by split <;> norm_num
      positivity

lemma bitsVal_lt (s : List Char) : bitsVal s < 2 ^ s.length := by
  induction s with
  | nil => simp [bitsVal]
  | cons c t ih =>
      rw [bitsVal_cons]
      have h1 : (if c = '1' then (1:ℤ) else 0) ≤ 1 := by split <;> norm_num
      have h2 : (if c = '1' then (1:ℤ) else 0) * 2 ^ t.length ≤ 2 ^ t.length := by
        nlinarith [pow_pos (two_pos (α := ℤ)) t.length]
      calc (if c = '1' then (1:ℤ) else 0) * 2 ^ t.length + bitsVal t
          < 2 ^ t.length + 2 ^ t.length := by linarith
        _ = 2 ^ (c :: t).length := by rw [List.length_cons]; ring

lemma bitsVal_replicate_zero (p : ℕ) : bitsVal (List.replicate p '0') = 0 := by
  induction p with
  | zero => simp [bitsVal]
  | succ p ih => rw [List.replicate_succ, bitsVal_cons, ih, if_neg (by decide)]; ring

lemma bitsVal_replicate_one (p : ℕ) : bitsVal (List.replicate p '1') = 2 ^ p - 1 := by
  induction p with
  | zero => simp [bitsVal]
  | succ p ih =>
      rw [List.replicate_succ, bitsVal_cons, ih, if_pos rfl, List.length_replicate]
      ring

/-! ### Properties of the greedy bit-accumulation loop -/

/-- Structural behaviour of `gloop`: it runs down to `lo - 1`, emits exactly one
character per iteration, and the final accumulator is the starting one plus the
emitted bits read as a binary number scaled by `2^lo`. -/
lemma gloop_spec (v : ℚ) (lo : ℤ) (i : ℤ) (acc : ℚ) (s : List Char) :
    lo - 1 ≤ i →
    ∃ t : List Char,
      gloop v lo i acc s = (lo - 1, acc + (bitsVal t : ℚ) * (2:ℚ) ^ lo, s ++ t)
        ∧ (t.length : ℤ) = i + 1 - lo := by
  induction i, acc, s using gloop.induct v lo with
  | case1 i acc s hge hle ih =>
      intro _
      obtain ⟨t', heq, hlen⟩ := ih (by omega)
      refine ⟨'1' :: t', ?_, ?_⟩
      · rw [gloop]
        simp only [hge, dite_true, if_pos hle]
        rw [heq]
        have hpow : (2:ℚ) ^ (i : ℤ) = (2:ℚ) ^ (t'.length : ℤ) * (2:ℚ) ^ lo := by
          rw [← zpow_add₀ (two_ne_zero) (t'.length : ℤ) lo, hlen]
          norm_num
        have hval : acc + (2:ℚ) ^ (i : ℤ) + (bitsVal t' : ℚ) * (2:ℚ) ^ lo
            = acc + (bitsVal ('1' :: t') : ℚ) * (2:ℚ) ^ lo := by
          rw [bitsVal_cons, if_pos rfl, hpow]
          push_cast
          rw [zpow_natCast]
          ring
        rw [Prod.mk.injEq, Prod.mk.injEq]
        exact ⟨rfl, hval, by simp [List.append_assoc]⟩
      · simp only [List.length_cons]
        push_cast
        omega
  | case2 i acc s hge hle ih =>
      intro _
      obtain ⟨t', heq, hlen⟩ := ih (by omega)
      refine ⟨'0' :: t', ?_, ?_⟩
      · rw [gloop]
        simp only [hge, dite_true, if_neg hle]
        rw [heq]
        have hval : acc + (bitsVal t' : ℚ) * (2:ℚ) ^ lo
            = acc + (bitsVal ('0' :: t') : ℚ) * (2:ℚ) ^ lo := by
          rw [bitsVal_cons, if_neg (by decide)]
          push_cast
          ring
        rw [Prod.mk.injEq, Prod.mk.injEq]
        exact ⟨rfl, hval, by simp [List.append_assoc]⟩
      · simp only [List.length_cons]
        push_cast
        omega
  | case3 i acc s hge =>
      intro hi
      have hilo : i = lo - 1 := by omega
      refine ⟨[], ?_, ?_⟩
      · rw [gloop]
        simp only [hge, dite_false]
        rw [Prod.mk.injEq, Prod.mk.injEq]
        refine ⟨hilo, ?_, by simp⟩
        simp [bitsVal]
      · simp [hilo]

/-- Greedy invariant of `gloop`: starting from an accumulator that is an integer
multiple of `2^(bit_idx+1)` with `acc ≤ v < acc + 2^(bit_idx+1)`, the loop ends
with the largest multiple of `2^lo` that is at most `v`. -/
lemma gloop_acc (v : ℚ) (lo : ℤ) (i : ℤ) (acc : ℚ) (s : List Char) :
    ∀ m : ℤ, lo - 1 ≤ i → acc = (m : ℚ) * (2:ℚ) ^ (i + 1) → acc ≤ v →
      v < acc + (2:ℚ) ^ (i + 1) →
      (gloop v lo i acc s).2.1 = (⌊v / (2:ℚ) ^ lo⌋ : ℚ) * (2:ℚ) ^ lo := by
  induction i, acc, s using gloop.induct v lo with
  | case1 i acc s hge hle ih =>
      intro m _ hacc _ hlt
      have hi1 : (i : ℤ) - 1 + 1 = i := by ring
      have h2 : (2:ℚ) ^ ((i : ℤ) + 1) = (2:ℚ) ^ (i : ℤ) * 2 := zpow_add_one₀ two_ne_zero i
      rw [gloop]
      simp only [hge, dite_true, if_pos hle]
      apply ih (2 * m + 1) (by omega)
      · rw [hacc, hi1, h2]
        push_cast
        ring
      · exact hle
      · rw [hi1]
        rw [h2] at hlt
        linarith
  | case2 i acc s hge hle ih =>
      intro m _ hacc _ hlt
      have hi1 : (i : ℤ) - 1 + 1 = i := by ring
      have h2 : (2:ℚ) ^ ((i : ℤ) + 1) = (2:ℚ) ^ (i : ℤ) * 2 := zpow_add_one₀ two_ne_zero i
      rw [gloop]
      simp only [hge, dite_true, if_neg hle]
      apply ih (2 * m) (by omega)
      · rw [hacc, hi1, h2]
        push_cast
        ring
      · assumption
      · rw [hi1]
        linarith [not_le.mp hle]
  | case3 i acc s hge =>
      intro m hi hacc hle hlt
      have hilo : i = lo - 1 := by omega
      subst hilo
      have hP : (0:ℚ) < (2:ℚ) ^ lo := zpow_pos two_pos lo
      have hlo1 : lo - 1 + 1 = lo := by ring
      rw [hlo1] at hacc hlt
      have hfl : ⌊v / (2:ℚ) ^ lo⌋ = m := by
        rw [Int.floor_eq_iff]
        constructor
        · rw [le_div_iff₀ hP]
          rw [hacc] at hle
          exact hle
        · rw [div_lt_iff₀ hP]
          rw [hacc] at hlt
          push_cast
          linarith
      rw [gloop]
      simp only [hge, dite_false]
      rw [hfl, ← hacc]

/-! ### The two stages of `rawParts` -/

/-- The fractional-part loop run from the integer-part accumulator `⌊v⌋`:
its emitted bits read as a binary number give the floor-truncated fractional
remainder, and exactly `frac_bits` characters are emitted. -/
lemma frac_stage (v : ℚ) (f : ℕ) :
    bitsVal (gloop v (-(f:ℤ)) (-1) ((⌊v⌋ : ℚ)) []).2.2 = ⌊v * 2 ^ f⌋ - ⌊v⌋ * 2 ^ f
  ∧ (gloop v (-(f:ℤ)) (-1) ((⌊v⌋ : ℚ)) []).2.2.length = f := by
  have hstart : -(f:ℤ) - 1 ≤ -1 := by omega
  obtain ⟨t, heq, hlen⟩ := gloop_spec v (-(f:ℤ)) (-1) ((⌊v⌋ : ℚ)) [] hstart
  have hA := gloop_acc v (-(f:ℤ)) (-1) ((⌊v⌋ : ℚ)) [] ⌊v⌋ hstart (by norm_num)
    (Int.floor_le v) (by simpa using Int.lt_floor_add_one v)
  rw [heq] at hA
  dsimp only at hA
  have hdiv : v / (2:ℚ) ^ (-(f:ℤ)) = v * 2 ^ f := by
    rw [zpow_neg, div_eq_mul_inv, inv_inv, zpow_natCast]
  rw [hdiv] at hA
  have h2 : (2:ℚ) ^ (-(f:ℤ)) * (2:ℚ) ^ (f:ℤ) = 1 := by
    rw [← zpow_add₀ (two_ne_zero : (2:ℚ) ≠ 0)]
    norm_num
  have hbv : (bitsVal t : ℚ) = (⌊v * 2 ^ f⌋ : ℚ) - (⌊v⌋ : ℚ) * (2:ℚ) ^ (f:ℤ) := by
    calc (bitsVal t : ℚ)
        = (bitsVal t : ℚ) * ((2:ℚ) ^ (-(f:ℤ)) * (2:ℚ) ^ (f:ℤ)) := by rw [h2, mul_one]
      _ = ((⌊v⌋ : ℚ) + (bitsVal t : ℚ) * (2:ℚ) ^ (-(f:ℤ))) * (2:ℚ) ^ (f:ℤ)
            - (⌊v⌋ : ℚ) * (2:ℚ) ^ (f:ℤ) := by ring
      _ = (⌊v * 2 ^ f⌋ : ℚ) * (2:ℚ) ^ (-(f:ℤ)) * (2:ℚ) ^ (f:ℤ)
            - (⌊v⌋ : ℚ) * (2:ℚ) ^ (f:ℤ) := by rw [hA]
      _ = (⌊v * 2 ^ f⌋ : ℚ) * ((2:ℚ) ^ (-(f:ℤ)) * (2:ℚ) ^ (f:ℤ))
            - (⌊v⌋ : ℚ) * (2:ℚ) ^ (f:ℤ) := by ring
      _ = (⌊v * 2 ^ f⌋ : ℚ) - (⌊v⌋ : ℚ) * (2:ℚ) ^ (f:ℤ) := by rw [h2, mul_one]
  constructor
  · rw [heq]
    show bitsVal t = _
    have : ((2:ℚ) ^ (f:ℤ)) = ((2 ^ f : ℤ) : ℚ) := by
      rw [zpow_natCast]; push_cast; ring
    rw [this] at hbv
    exact_mod_cast hbv
  · rw [heq]
    show t.length = f
    omega

/-- Running `rawParts` on a negative input: the raw integer string starts with the sign
bit `'1'`, has `searchNeg v 0 + 1` characters, and reads (unsigned) as
`⌊v⌋ + 2^length` — the two's-complement pattern of `⌊v⌋` at that width; the
fractional string has exactly `frac_bits` characters encoding the
floor-truncated fractional remainder. -/
lemma rawParts_neg (v : ℚ) (f : ℕ) (hv : v < 0) :
    ∃ t : List Char,
      (rawParts v f).1 = '1' :: t
      ∧ (rawParts v f).1.length = searchNeg v 0 + 1
      ∧ bitsVal (rawParts v f).1 = ⌊v⌋ + 2 ^ (rawParts v f).1.length
      ∧ bitsVal (rawParts v f).2 = ⌊v * 2 ^ f⌋ - ⌊v⌋ * 2 ^ f
      ∧ (rawParts v f).2.length = f
      ∧ (rawParts v f).2 = (gloop v (-(f:ℤ)) (-1) ((⌊v⌋ : ℚ)) []).2.2 := by
  have hunf : rawParts v f =
      ((gloop v 0 ((searchNeg v 0 : ℤ) - 1) (-((2:ℚ) ^ (searchNeg v 0 : ℤ))) ['1']).2.2,
       (gloop v (-(f:ℤ))
          (gloop v 0 ((searchNeg v 0 : ℤ) - 1) (-((2:ℚ) ^ (searchNeg v 0 : ℤ))) ['1']).1
          (gloop v 0 ((searchNeg v 0 : ℤ) - 1) (-((2:ℚ) ^ (searchNeg v 0 : ℤ))) ['1']).2.1
          []).2.2) := by
    rw [rawParts, if_pos hv]
  have hstart : (0:ℤ) - 1 ≤ (searchNeg v 0 : ℤ) - 1 := by omega
  obtain ⟨t, heq, hlen⟩ :=
    gloop_spec v 0 ((searchNeg v 0 : ℤ) - 1) (-((2:ℚ) ^ (searchNeg v 0 : ℤ))) ['1'] hstart
  have hk1 : ((searchNeg v 0 : ℤ) - 1) + 1 = (searchNeg v 0 : ℤ) := by ring
  have hle : -((2:ℚ) ^ (searchNeg v 0 : ℤ)) ≤ v := by
    rw [zpow_natCast]
    exact searchNeg_post v 0
  have hA := gloop_acc v 0 ((searchNeg v 0 : ℤ) - 1) (-((2:ℚ) ^ (searchNeg v 0 : ℤ)))
    ['1'] (-1) hstart (by rw [hk1]; push_cast; ring) hle (by rw [hk1]; linarith)
  rw [heq] at hA
  dsimp only at hA
  simp only [zpow_zero, div_one, mul_one] at hA
  have haccval : -((2:ℚ) ^ (searchNeg v 0 : ℤ)) + (bitsVal t : ℚ) * (2:ℚ) ^ (0:ℤ)
      = ((⌊v⌋ : ℤ) : ℚ) := by
    simpa using hA
  rw [heq] at hunf
  dsimp only at hunf
  rw [haccval] at hunf
  have h01 : (0:ℤ) - 1 = -1 := by norm_num
  rw [h01] at hunf
  have htl : t.length = searchNeg v 0 := by
    rw [hk1] at hlen
    omega
  have hbt : bitsVal t = ⌊v⌋ + 2 ^ searchNeg v 0 := by
    have h2 : ((2:ℚ) ^ (searchNeg v 0 : ℤ)) = ((2 ^ searchNeg v 0 : ℤ) : ℚ) := by
      rw [zpow_natCast]; push_cast; ring
    have : (bitsVal t : ℚ) = ((⌊v⌋ + 2 ^ searchNeg v 0 : ℤ) : ℚ) := by
      push_cast
      rw [← zpow_natCast (2:ℚ) (searchNeg v 0)]
      linarith [hA]
    exact_mod_cast this
  refine ⟨t, ?_, ?_, ?_, ?_, ?_, ?_⟩
  · rw [hunf]
    rfl
  · rw [hunf]
    simp [htl]
  · rw [hunf]
    show bitsVal ('1' :: t) = ⌊v⌋ + 2 ^ ('1' :: t).length
    rw [bitsVal_cons, if_pos rfl, hbt, htl]
    simp only [List.length_cons, htl]
    ring
  · rw [hunf]
    exact (frac_stage v f).1
  · rw [hunf]
    exact (frac_stage v f).2
  · rw [hunf]

/-- Running `rawParts` on a non-negative input: the raw integer string has
`searchUp v 0` characters and reads (unsigned) as `⌊v⌋`; the fractional string
has exactly `frac_bits` characters encoding the floor-truncated fractional
remainder. -/
lemma rawParts_nonneg (v : ℚ) (f : ℕ) (hv : ¬ v < 0) :
    (rawParts v f).1.length = searchUp v 0
    ∧ bitsVal (rawParts v f).1 = ⌊v⌋
    ∧ bitsVal (rawParts v f).2 = ⌊v * 2 ^ f⌋ - ⌊v⌋ * 2 ^ f
    ∧ (rawParts v f).2.length = f
    ∧ (rawParts v f).2 = (gloop v (-(f:ℤ)) (-1) ((⌊v⌋ : ℚ)) []).2.2 := by
  have hunf : rawParts v f =
      ((gloop v 0 ((searchUp v 0 : ℤ) - 1) 0 []).2.2,
       (gloop v (-(f:ℤ))
          (gloop v 0 ((searchUp v 0 : ℤ) - 1) 0 []).1
          (gloop v 0 ((searchUp v 0 : ℤ) - 1) 0 []).2.1
          []).2.2) := by
    rw [rawParts, if_neg hv]
  have hstart : (0:ℤ) - 1 ≤ (searchUp v 0 : ℤ) - 1 := by omega
  obtain ⟨t, heq, hlen⟩ := gloop_spec v 0 ((searchUp v 0 : ℤ) - 1) 0 [] hstart
  have hk1 : ((searchUp v 0 : ℤ) - 1) + 1 = (searchUp v 0 : ℤ) := by ring
  have hlt : v < 0 + (2:ℚ) ^ (((searchUp v 0 : ℤ) - 1) + 1) := by
    rw [hk1, zpow_natCast]
    simpa using searchUp_post v 0
  have hA := gloop_acc v 0 ((searchUp v 0 : ℤ) - 1) 0 [] 0 hstart (by push_cast; ring)
    (not_lt.mp hv) hlt
  rw [heq] at hA
  dsimp only at hA
  simp only [zpow_zero, div_one, mul_one] at hA
  have haccval : (0:ℚ) + (bitsVal t : ℚ) * (2:ℚ) ^ (0:ℤ) = ((⌊v⌋ : ℤ) : ℚ) := by
    simpa using hA
  rw [heq] at hunf
  dsimp only at hunf
  rw [haccval] at hunf
  have h01 : (0:ℤ) - 1 = -1 := by norm_num
  rw [h01] at hunf
  have htl : t.length = searchUp v 0 := by
    rw [hk1] at hlen
    omega
  have hbt : bitsVal t = ⌊v⌋ := by
    have : (bitsVal t : ℚ) = ((⌊v⌋ : ℤ) : ℚ) := by linarith [hA]
    exact_mod_cast this
  refine ⟨?_, ?_, ?_, ?_, ?_⟩
  · rw [hunf]
    simpa using htl
  · rw [hunf]
    simpa using hbt
  · rw [hunf]
    exact (frac_stage v f).1
  · rw [hunf]
    exact (frac_stage v f).2
  · rw [hunf]

/-! ### Properties of the width adjustment -/

lemma adjustInt_lt (b : Bool) (i : ℕ) (s : List Char) (h : s.length < i) :
    adjustInt b i s =
      (if b then List.replicate (i - s.length) '1'
       else List.replicate (i - s.length) '0') ++ s := by
  unfold adjustInt
  rw [if_neg (by omega), if_pos h]

lemma adjustInt_gt (b : Bool) (i : ℕ) (s : List Char) (h : s.length > i) :
    adjustInt b i s = s.drop (s.length - i) := by
  unfold adjustInt
  rw [if_pos h, if_neg (by omega)]

lemma adjustInt_eq (b : Bool) (i : ℕ) (s : List Char) (h : s.length = i) :
    adjustInt b i s = s := by
  unfold adjustInt
  rw [if_neg (by omega), if_neg (by omega)]

lemma adjustInt_length (b : Bool) (i : ℕ) (s : List Char) :
    (adjustInt b i s).length = i := by
  rcases lt_trichotomy s.length i with h | h | h
  · rw [adjustInt_lt b i s h]
    cases b <;> simp <;> omega
  · rw [adjustInt_eq b i s h, h]
  · rw [adjustInt_gt b i s h]
    simp
    omega

/-- Dropping all but the last `i` characters of a bit string takes its unsigned
value modulo `2^i`. -/
lemma bitsVal_drop_mod (s : List Char) (i : ℕ) (hi : i ≤ s.length) :
    bitsVal (s.drop (s.length - i)) = bitsVal s % 2 ^ i := by
  have hsplit : s.take (s.length - i) ++ s.drop (s.length - i) = s :=
    List.take_append_drop _ s
  have hlen : (s.drop (s.length - i)).length = i := by
    simp
    omega
  have happ : bitsVal s
      = bitsVal (s.take (s.length - i)) * 2 ^ i + bitsVal (s.drop (s.length - i)) := by
    conv_lhs => rw [← hsplit]
    rw [bitsVal_append, hlen]
  have h0 := bitsVal_nonneg (s.drop (s.length - i))
  have h1 := bitsVal_lt (s.drop (s.length - i))
  rw [hlen] at h1
  have hmod : bitsVal s % 2 ^ i
      = (bitsVal (s.drop (s.length - i)) + 2 ^ i * bitsVal (s.take (s.length - i))) % 2 ^ i := by
    rw [happ]
    ring_nf
  rw [hmod, Int.add_mul_emod_self_left, Int.emod_eq_of_lt h0 h1]

/-- The integer-part string returned by `float_to_bin_str`, read as an unsigned
binary number, is `⌊v⌋ mod 2^int_bits`: silent truncation realizes exact
two's-complement wraparound for every input. -/
lemma intPart_mod (v : ℚ) (i f : ℕ) :
    bitsVal (float_to_bin_str v i f).1 = ⌊v⌋ % 2 ^ i := by
  have hf2b : (float_to_bin_str v i f).1 = adjustInt (decide (v < 0)) i (rawParts v f).1 := rfl
  by_cases hv : v < 0
  · obtain ⟨t, hcons, hlenr, hbits, _, _, _⟩ := rawParts_neg v f hv
    have hb : decide (v < 0) = true := by simp [hv]
    have hfl_lt : ⌊v⌋ < 0 := Int.floor_lt.mpr (by exact_mod_cast hv)
    have hfl_ge : -(2 ^ searchNeg v 0) ≤ ⌊v⌋ := by
      apply Int.le_floor.mpr
      push_cast
      exact searchNeg_post v 0
    rcases lt_trichotomy ((rawParts v f).1.length) i with hL | hL | hL
    · rw [hf2b, adjustInt_lt _ _ _ hL, hb, if_pos rfl, bitsVal_append,
        bitsVal_replicate_one, hbits]
      have hpowsplit : (2:ℤ) ^ (i - (rawParts v f).1.length) * 2 ^ (rawParts v f).1.length
          = 2 ^ i := by
        rw [← pow_add]
        congr 1
        omega
      have hval : ((2:ℤ) ^ (i - (rawParts v f).1.length) - 1) * 2 ^ (rawParts v f).1.length
          + (⌊v⌋ + 2 ^ (rawParts v f).1.length) = ⌊v⌋ + 2 ^ i := by
        rw [← hpowsplit]
        ring
      rw [hval]
      have hki : (2:ℤ) ^ searchNeg v 0 ≤ 2 ^ i := by
        apply pow_le_pow_right (by norm_num)
        omega
      have hmod : (⌊v⌋ + 2 ^ i * 1) % 2 ^ i = ⌊v⌋ % 2 ^ i := Int.add_mul_emod_self_left _ _ _
      have hlt2 : ⌊v⌋ + 2 ^ i < 2 ^ i := by omega
      have hge2 : 0 ≤ ⌊v⌋ + 2 ^ i := by omega
      rw [← Int.emod_eq_of_lt hge2 hlt2]
      rw [show ⌊v⌋ + (2:ℤ) ^ i = ⌊v⌋ + 2 ^ i * 1 by ring, hmod]
    · rw [hf2b, adjustInt_eq _ _ _ hL, hbits, hL]
      have hki : (2:ℤ) ^ searchNeg v 0 ≤ 2 ^ i := by
        apply pow_le_pow_right (by norm_num)
        omega
      have hmod : (⌊v⌋ + 2 ^ i * 1) % 2 ^ i = ⌊v⌋ % 2 ^ i := Int.add_mul_emod_self_left _ _ _
      have hlt2 : ⌊v⌋ + 2 ^ i < 2 ^ i := by omega
      have hge2 : 0 ≤ ⌊v⌋ + 2 ^ i := by omega
      rw [← Int.emod_eq_of_lt hge2 hlt2]
      rw [show ⌊v⌋ + (2:ℤ) ^ i = ⌊v⌋ + 2 ^ i * 1 by ring, hmod]
    · rw [hf2b, adjustInt_gt _ _ _ hL, bitsVal_drop_mod _ _ (by omega), hbits]
      have hsplit : (2:ℤ) ^ (rawParts v f).1.length
          = 2 ^ i * 2 ^ ((rawParts v f).1.length - i) := by
        rw [← pow_add]
        congr 1
        omega
      rw [hsplit, Int.add_mul_emod_self_left]
  · obtain ⟨hlenr, hbits, _, _, _⟩ := rawParts_nonneg v f hv
    have hb : decide (v < 0) = false := by simp [hv]
    have hfl_ge : 0 ≤ ⌊v⌋ := Int.le_floor.mpr (by exact_mod_cast not_lt.mp hv)
    have hfl_lt : ⌊v⌋ < 2 ^ (rawParts v f).1.length := by
      rw [← hbits]
      exact bitsVal_lt _
    rcases lt_trichotomy ((rawParts v f).1.length) i with hL | hL | hL
    · rw [hf2b, adjustInt_lt _ _ _ hL, hb, if_neg (by simp), bitsVal_append,
        bitsVal_replicate_zero, hbits]
      have hki : (2:ℤ) ^ (rawParts v f).1.length ≤ 2 ^ i := by
        apply pow_le_pow_right (by norm_num)
        omega
      rw [Int.emod_eq_of_lt hfl_ge (by omega)]
      ring
    · rw [hf2b, adjustInt_eq _ _ _ hL, hbits, ← hL]
      rw [Int.emod_eq_of_lt hfl_ge hfl_lt]
    · rw [hf2b, adjustInt_gt _ _ _ hL, bitsVal_drop_mod _ _ (by omega), hbits]

/-! ### Single-step unfolding lemmas, used to evaluate concrete examples -/

lemma searchUp_step (v : ℚ) (i : ℕ) (h : (2:ℚ) ^ i ≤ v) :
    searchUp v i = searchUp v (i + 1) := by
  rw [searchUp]
  simp [h]

lemma searchUp_stop (v : ℚ) (i : ℕ) (h : ¬ (2:ℚ) ^ i ≤ v) : searchUp v i = i := by
  rw [searchUp]
  simp [h]

lemma searchNeg_stop (v : ℚ) (i : ℕ) (h : ¬ -((2:ℚ) ^ i) > v) : searchNeg v i = i := by
  rw [searchNeg]
  simp [h]

lemma gloop_take (v : ℚ) (lo i : ℤ) (acc : ℚ) (s : List Char)
    (h1 : i ≥ lo) (h2 : acc + (2:ℚ) ^ i ≤ v) :
    gloop v lo i acc s = gloop v lo (i - 1) (acc + (2:ℚ) ^ i) (s ++ ['1']) := by
  rw [gloop]
  simp [h1, h2]

lemma gloop_skip (v : ℚ) (lo i : ℤ) (acc : ℚ) (s : List Char)
    (h1 : i ≥ lo) (h2 : ¬ acc + (2:ℚ) ^ i ≤ v) :
    gloop v lo i acc s = gloop v lo (i - 1) acc (s ++ ['0']) := by
  rw [gloop]
  simp [h1, h2]

lemma gloop_stop (v : ℚ) (lo i : ℤ) (acc : ℚ) (s : List Char) (h1 : ¬ i ≥ lo) :
    gloop v lo i acc s = (i, acc, s) := by
  rw [gloop]
  simp [h1]

/-- The loop `searchUp` started at `0` lands exactly one above the exponent
bracketing the input: if `2^m ≤ v < 2^(m+1)` then the loop stops at `m + 1`. -/
lemma searchUp_eq_succ (v : ℚ) (m : ℕ) (h1 : (2:ℚ) ^ m ≤ v) (h2 : v < (2:ℚ) ^ (m + 1)) :
    searchUp v 0 = m + 1 := by
  have hle := searchUp_le_of v (m + 1) h2
  by_contra hc
  have hsm : searchUp v 0 ≤ m := by omega
  have : (2:ℚ) ^ searchUp v 0 ≤ (2:ℚ) ^ m := pow_le_pow_right₀ one_le_two hsm
  linarith [searchUp_post v 0]

/-! ### Concrete evaluations used by the spec's worked examples -/

lemma searchUp_nine : searchUp (9:ℚ) 0 = 4 := by
  rw [searchUp_step _ _ (by norm_num), searchUp_step _ _ (by norm_num),
    searchUp_step _ _ (by norm_num), searchUp_step _ _ (by norm_num),
    searchUp_stop _ _ (by norm_num)]

lemma rawParts_nine : rawParts 9 0 = (['1', '0', '0', '1'], []) := by
  rw [rawParts, if_neg (by norm_num), searchUp_nine]
  norm_num
  rw [gloop_take _ _ _ _ _ (by norm_num) (by norm_num),
    gloop_skip _ _ _ _ _ (by norm_num) (by norm_num),
    gloop_skip _ _ _ _ _ (by norm_num) (by norm_num),
    gloop_take _ _ _ _ _ (by norm_num) (by norm_num),
    gloop_stop _ _ _ _ _ (by norm_num)]
  norm_num
  rw [gloop_stop _ _ _ _ _ (by norm_num)]

lemma searchUp_four : searchUp (4:ℚ) 0 = 3 := by
  rw [searchUp_step _ _ (by norm_num), searchUp_step _ _ (by norm_num),
    searchUp_step _ _ (by norm_num), searchUp_stop _ _ (by norm_num)]

lemma rawParts_four : rawParts 4 0 = (['1', '0', '0'], []) := by
  rw [rawParts, if_neg (by norm_num), searchUp_four]
  norm_num
  rw [gloop_take _ _ _ _ _ (by norm_num) (by norm_num),
    gloop_skip _ _ _ _ _ (by norm_num) (by norm_num),
    gloop_skip _ _ _ _ _ (by norm_num) (by norm_num),
    gloop_stop _ _ _ _ _ (by norm_num)]
  norm_num
  rw [gloop_stop _ _ _ _ _ (by norm_num)]

lemma rawParts_neg_one : rawParts (-1) 0 = (['1'], []) := by
  rw [rawParts, if_pos (by norm_num), searchNeg_stop _ _ (by norm_num)]
  norm_num
  rw [gloop_stop _ _ _ _ _ (by norm_num)]
  norm_num
  rw [gloop_stop _ _ _ _ _ (by norm_num)]

lemma rawParts_three_fifths : rawParts (3/5) 3 = ([], ['1', '0', '0']) := by
  rw [rawParts, if_neg (by norm_num), searchUp_eq_zero _ (by norm_num)]
  norm_num
  rw [gloop_stop _ _ _ _ _ (by norm_num)]
  norm_num
  rw [gloop_take _ _ _ _ _ (by norm_num) (by norm_num),
    gloop_skip _ _ _ _ _ (by norm_num) (by norm_num),
    gloop_skip _ _ _ _ _ (by norm_num) (by norm_num),
    gloop_stop _ _ _ _ _ (by norm_num)]
  rfl

/-! ### Claim theorems -/

/-- C2: for every value, every `int_bits ≥ 1` and every `frac_bits`,
`float_to_bin_str` returns a pair whose first component has length exactly
`int_bits` and whose second component has length exactly `frac_bits`,
regardless of the input's magnitude; in particular `frac_bits = 0` yields an
empty fractional string. -/
theorem C2_length_invariant (v : ℚ) (i f : ℕ) (h : 1 ≤ i) :
    (float_to_bin_str v i f).1.length = i
  ∧ (float_to_bin_str v i f).2.length = f
  ∧ (float_to_bin_str v i 0).2 = [] := by
  have hfrac : ∀ g : ℕ, (float_to_bin_str v i g).2.length = g := by
    intro g
    show (rawParts v g).2.length = g
    by_cases hv : v < 0
    · obtain ⟨t, _, _, _, _, h5, _⟩ := rawParts_neg v g hv
      exact h5
    · exact (rawParts_nonneg v g hv).2.2.2.1
  refine ⟨adjustInt_length _ _ _, hfrac f, ?_⟩
  have := hfrac 0
  exact List.length_eq_zero.mp this

theorem C2_witness :
    1 ≤ 4 ∧ ((float_to_bin_str (7:ℚ) 4 2).1.length = 4
      ∧ (float_to_bin_str (7:ℚ) 4 2).2.length = 2
      ∧ (float_to_bin_str (7:ℚ) 4 0).2 = []) :=
  ⟨by norm_num, C2_length_invariant 7 4 2 (by norm_num)⟩

/-- C9: `float_to_bin_str` is a pure, deterministic function: any two calls
with equal arguments return equal string pairs, independent of prior calls
(the embedding is a function of its arguments alone, so this is congruence). -/
theorem C9_pure_deterministic (v v' : ℚ) (i i' f f' : ℕ)
    (hv : v = v') (hi : i = i') (hf : f = f') :
    float_to_bin_str v i f = float_to_bin_str v' i' f' := by
  subst hv
  subst hi
  subst hf
  rfl

theorem C9_witness :
    (1:ℚ) = 1 ∧ float_to_bin_str 1 2 3 = float_to_bin_str 1 2 3 :=
  ⟨rfl, C9_pure_deterministic 1 1 2 2 3 3 rfl rfl rfl⟩

/-- C10: the integer-part output does not depend on `frac_bits`, and the
fractional-part output does not depend on `int_bits`: the fractional bits come
from the accumulator before any width adjustment of the integer string. -/
theorem C10_parts_independent (v : ℚ) (i i' f f' : ℕ) :
    (float_to_bin_str v i f).1 = (float_to_bin_str v i f').1
  ∧ (float_to_bin_str v i f).2 = (float_to_bin_str v i' f).2 := by
  constructor
  · show adjustInt (decide (v < 0)) i (rawParts v f).1
      = adjustInt (decide (v < 0)) i (rawParts v f').1
    have hraw : (rawParts v f).1 = (rawParts v f').1 := by
      simp only [rawParts]
      by_cases hv : v < 0 <;> simp [hv]
    rw [hraw]
  · rfl

/-- C5: when the raw integer string is shorter than `int_bits`, the result is
left-padded with `'1'` (sign extension) for negative values and `'0'` (zero
extension) otherwise, reaching exactly `int_bits` characters; in particular
encoding `-1` at `int_bits = 8` yields `"11111111"`. -/
theorem C5_sign_extension (v : ℚ) (i f : ℕ) (h : (rawParts v f).1.length < i) :
    (float_to_bin_str v i f).1
      = List.replicate (i - (rawParts v f).1.length) (if v < 0 then '1' else '0')
          ++ (rawParts v f).1
  ∧ (float_to_bin_str (-1) 8 0).1 = ['1', '1', '1', '1', '1', '1', '1', '1'] := by
  constructor
  · show adjustInt (decide (v < 0)) i (rawParts v f).1 = _
    rw [adjustInt_lt _ _ _ h]
    by_cases hv : v < 0
    · simp [hv]
    · simp [hv]
  · show adjustInt (decide ((-1:ℚ) < 0)) 8 (rawParts (-1) 0).1 = _
    rw [rawParts_neg_one]
    rfl

theorem C5_witness :
    (rawParts (-1 : ℚ) 0).1.length < 8
  ∧ ((float_to_bin_str (-1) 8 0).1
      = List.replicate (8 - (rawParts (-1 : ℚ) 0).1.length)
          (if (-1:ℚ) < 0 then '1' else '0') ++ (rawParts (-1 : ℚ) 0).1
    ∧ (float_to_bin_str (-1) 8 0).1 = ['1', '1', '1', '1', '1', '1', '1', '1']) :=
  ⟨by rw [rawParts_neg_one]; norm_num,
   C5_sign_extension (-1) 8 0 (by rw [rawParts_neg_one]; norm_num)⟩

/-- C4: when the raw integer string is longer than `int_bits`, the result keeps
only the least-significant `int_bits` characters, silently dropping the
most-significant extras; in particular encoding `9` at `int_bits = 3` yields
`"001"`, the bit pattern of `9 mod 8`, rather than an error. -/
theorem C4_overflow_truncation (v : ℚ) (i f : ℕ) (h : i < (rawParts v f).1.length) :
    (float_to_bin_str v i f).1 = (rawParts v f).1.drop ((rawParts v f).1.length - i)
  ∧ (float_to_bin_str 9 3 0).1 = ['0', '0', '1']
  ∧ bitsVal (float_to_bin_str 9 3 0).1 = 9 % 2 ^ 3 := by
  refine ⟨?_, ?_, ?_⟩
  · show adjustInt (decide (v < 0)) i (rawParts v f).1 = _
    exact adjustInt_gt _ _ _ h
  · show adjustInt (decide ((9:ℚ) < 0)) 3 (rawParts 9 0).1 = _
    rw [rawParts_nine]
    rfl
  · have h9 : (float_to_bin_str 9 3 0).1 = ['0', '0', '1'] := by
      show adjustInt (decide ((9:ℚ) < 0)) 3 (rawParts 9 0).1 = _
      rw [rawParts_nine]
      rfl
    rw [h9]
    rfl

theorem C4_witness :
    3 < (rawParts (9:ℚ) 0).1.length
  ∧ ((float_to_bin_str (9:ℚ) 3 0).1
        = (rawParts (9:ℚ) 0).1.drop ((rawParts (9:ℚ) 0).1.length - 3)
    ∧ (float_to_bin_str 9 3 0).1 = ['0', '0', '1']
    ∧ bitsVal (float_to_bin_str 9 3 0).1 = 9 % 2 ^ 3) :=
  ⟨by rw [rawParts_nine]; norm_num,
   C4_overflow_truncation 9 3 0 (by rw [rawParts_nine]; norm_num)⟩

/-- C3: the magnitude search picks the starting index as specified: for a
negative value, `searchNeg` returns the smallest `k ≥ 0` with `-2^k ≤ v`; for
`v ≥ 1` the starting index `searchUp v 0 - 1` is the largest `k` with
`2^k ≤ v`; for `0 ≤ v < 1` the starting index is `-1`; and at the exact
power-of-two boundary, encoding `4` with `int_bits = 5, frac_bits = 0` yields
`"00100"`. -/
theorem C3_magnitude_search (v : ℚ) :
    (v < 0 → (-((2:ℚ) ^ searchNeg v 0) ≤ v
        ∧ (searchNeg v 0 = 0 ∨ v < -((2:ℚ) ^ (searchNeg v 0 - 1)))))
  ∧ (1 ≤ v → ((2:ℚ) ^ (searchUp v 0 - 1) ≤ v ∧ v < (2:ℚ) ^ searchUp v 0
        ∧ 1 ≤ searchUp v 0))
  ∧ (0 ≤ v → v < 1 → (searchUp v 0 : ℤ) - 1 = -1)
  ∧ (float_to_bin_str 4 5 0).1 = ['0', '0', '1', '0', '0'] := by
  refine ⟨?_, ?_, ?_, ?_⟩
  · intro _
    refine ⟨searchNeg_post v 0, ?_⟩
    rcases Nat.eq_zero_or_pos (searchNeg v 0) with h0 | h0
    · exact Or.inl h0
    · exact Or.inr (searchNeg_min v 0 (searchNeg v 0 - 1) (Nat.zero_le _) (by omega))
  · intro h1
    have hpos := searchUp_pos v h1
    exact ⟨searchUp_min v 0 (searchUp v 0 - 1) (Nat.zero_le _) (by omega),
      searchUp_post v 0, hpos⟩
  · intro _ hlt
    rw [searchUp_eq_zero v hlt]
    norm_num
  · show adjustInt (decide ((4:ℚ) < 0)) 5 (rawParts 4 0).1 = _
    rw [rawParts_four]
    rfl

theorem C3_witness :
    (-((2:ℚ) ^ searchNeg (-3) 0) ≤ -3
      ∧ (searchNeg (-3 : ℚ) 0 = 0 ∨ (-3:ℚ) < -((2:ℚ) ^ (searchNeg (-3 : ℚ) 0 - 1))))
  ∧ ((2:ℚ) ^ (searchUp (3/2 : ℚ) 0 - 1) ≤ 3/2 ∧ (3/2:ℚ) < (2:ℚ) ^ searchUp (3/2 : ℚ) 0
      ∧ 1 ≤ searchUp (3/2 : ℚ) 0) :=
  ⟨(C3_magnitude_search (-3)).1 (by norm_num),
   (C3_magnitude_search (3/2)).2.1 (by norm_num)⟩

/-- C8: the integer-part string, read as an unsigned binary number, equals
`⌊v⌋ mod 2^int_bits` for every input: the silent-truncation policy realizes
exact two's-complement wraparound for all out-of-range inputs, negative as
well as positive. -/
theorem C8_wraparound (v : ℚ) (i f : ℕ) (h : 1 ≤ i) :
    bitsVal (float_to_bin_str v i f).1 = ⌊v⌋ % 2 ^ i :=
  intPart_mod v i f

theorem C8_witness :
    1 ≤ 3 ∧ bitsVal (float_to_bin_str (-9/2 : ℚ) 3 2).1 = ⌊(-9/2 : ℚ)⌋ % 2 ^ 3 :=
  ⟨by norm_num, C8_wraparound (-9/2) 3 2 (by norm_num)⟩

/-- C6: the fractional part is the continuation of the greedy accumulation
from the integer-part accumulator `⌊v⌋` over bit positions `-1` down to
`-frac_bits`; its bits encode the floor-truncation of the fractional
remainder, never rounding up; in particular encoding `0.6` with
`int_bits = 1, frac_bits = 3` yields `"100"` (value `0.5`), not `"101"`. -/
theorem C6_frac_truncation (v : ℚ) (i f : ℕ) :
    (float_to_bin_str v i f).2 = (gloop v (-(f:ℤ)) (-1) ((⌊v⌋ : ℚ)) []).2.2
  ∧ bitsVal (float_to_bin_str v i f).2 = ⌊(v - (⌊v⌋ : ℚ)) * 2 ^ f⌋
  ∧ (bitsVal (float_to_bin_str v i f).2 : ℚ) / 2 ^ f ≤ v - (⌊v⌋ : ℚ)
  ∧ (float_to_bin_str (3/5) 1 3).2 = ['1', '0', '0'] := by
  have hfloor : ⌊(v - (⌊v⌋ : ℚ)) * 2 ^ f⌋ = ⌊v * 2 ^ f⌋ - ⌊v⌋ * 2 ^ f := by
    have hexp : (v - (⌊v⌋ : ℚ)) * 2 ^ f = v * 2 ^ f - ((⌊v⌋ * 2 ^ f : ℤ) : ℚ) := by
      push_cast
      ring
    rw [hexp, Int.floor_sub_int]
  have hval : bitsVal (float_to_bin_str v i f).2 = ⌊v * 2 ^ f⌋ - ⌊v⌋ * 2 ^ f := by
    show bitsVal (rawParts v f).2 = _
    by_cases hv : v < 0
    · obtain ⟨t, _, _, _, h4, _, _⟩ := rawParts_neg v f hv
      exact h4
    · exact (rawParts_nonneg v f hv).2.2.1
  refine ⟨?_, ?_, ?_, ?_⟩
  · show (rawParts v f).2 = _
    by_cases hv : v < 0
    · obtain ⟨t, _, _, _, _, _, h6⟩ := rawParts_neg v f hv
      exact h6
    · exact (rawParts_nonneg v f hv).2.2.2.2
  · rw [hval, hfloor]
  · rw [hval, ← hfloor]
    have hP : (0:ℚ) < (2:ℚ) ^ f := by positivity
    rw [div_le_iff₀ hP]
    exact Int.floor_le _
  · show (rawParts (3/5 : ℚ) 3).2 = _
    rw [rawParts_three_fifths]

/-- C7 (amended): the encoder always terminates (it is a total function of its
arguments); the fractional accumulation loop emits exactly `frac_bits`
characters, one per iteration, but the integer accumulation loop's iteration
count is governed by the magnitude of the input, not by `int_bits`; only when
the value lies within the `int_bits` two's-complement range is the total
number of emitted characters bounded by `int_bits + frac_bits`. -/
theorem C7_iteration_bound (v : ℚ) (i f : ℕ) (h1 : 1 ≤ i)
    (hlo : -((2:ℚ) ^ (i - 1)) ≤ v) (hhi : v < (2:ℚ) ^ (i - 1)) :
    (rawParts v f).1.length + (rawParts v f).2.length ≤ i + f
  ∧ (rawParts v f).2.length = f := by
  by_cases hv : v < 0
  · obtain ⟨t, _, hlen, _, _, hflen, _⟩ := rawParts_neg v f hv
    have hk := searchNeg_le_of v (i - 1) hlo
    constructor
    · rw [hlen, hflen]
      omega
    · exact hflen
  · obtain ⟨hlen, _, _, hflen, _⟩ := rawParts_nonneg v f hv
    have hk := searchUp_le_of v (i - 1) hhi
    constructor
    · rw [hlen, hflen]
      omega
    · exact hflen

theorem C7_witness :
    (1 ≤ 2 ∧ -((2:ℚ) ^ (2 - 1)) ≤ 3/2 ∧ (3/2 : ℚ) < (2:ℚ) ^ (2 - 1))
  ∧ ((rawParts (3/2 : ℚ) 5).1.length + (rawParts (3/2 : ℚ) 5).2.length ≤ 2 + 5
    ∧ (rawParts (3/2 : ℚ) 5).2.length = 5) :=
  ⟨⟨by norm_num, by norm_num, by norm_num⟩,
   C7_iteration_bound (3/2) 2 5 (by norm_num) (by norm_num) (by norm_num)⟩

/-- C7 counterexample: the claim's bound proportional to
`int_bits + frac_bits` fails: with `value = 2^10`, `int_bits = 1` and
`frac_bits = 0`, the integer accumulation loop emits `11` characters (one per
iteration), exceeding ten times `int_bits + frac_bits = 1`. -/
theorem C7_counterexample :
    (rawParts ((2:ℚ) ^ 10) 0).1.length = 11 ∧ 10 * (1 + 0) < 11 := by
  have h := (rawParts_nonneg ((2:ℚ) ^ 10) 0 (by norm_num)).1
  have hs : searchUp ((2:ℚ) ^ 10) 0 = 11 := searchUp_eq_succ _ 10 le_rfl (by norm_num)
  exact ⟨by rw [h, hs], by norm_num⟩

lemma twosComplementDecode_cons (c : Char) (r : List Char) (f : ℕ) :
    twosComplementDecode (c :: r) f
      = ((bitsVal (c :: r) : ℚ) - (if c = '1' then (2:ℚ) ^ (c :: r).length else 0))
        / (2:ℚ) ^ f := rfl

/-- C1: for every value whose integer magnitude fits within `int_bits`
(including the sign bit), decoding the concatenation of the two returned
strings as a standard two's-complement fixed-point number with `int_bits`
integer and `frac_bits` fractional bits yields `⌊v·2^frac_bits⌋ / 2^frac_bits`,
the floor-truncation of the input at the given fractional precision. -/
theorem C1_round_trip (v : ℚ) (i f : ℕ) (h1 : 1 ≤ i)
    (hlo : -((2:ℚ) ^ (i - 1)) ≤ v) (hhi : v < (2:ℚ) ^ (i - 1)) :
    twosComplementDecode
        ((float_to_bin_str v i f).1 ++ (float_to_bin_str v i f).2) f
      = (⌊v * 2 ^ f⌋ : ℚ) / 2 ^ f := by
  have hilen : (float_to_bin_str v i f).1.length = i := adjustInt_length _ _ _
  by_cases hv : v < 0
  · obtain ⟨t, hcons, hlenr, hbitsr, hfracv, hflen, _⟩ := rawParts_neg v f hv
    have hk : searchNeg v 0 ≤ i - 1 := searchNeg_le_of v (i - 1) hlo
    have hLle : (rawParts v f).1.length ≤ i := by omega
    obtain ⟨rest, hrest⟩ : ∃ rest, (float_to_bin_str v i f).1 = '1' :: rest := by
      rcases lt_or_eq_of_le hLle with hL | hL
      · refine ⟨List.replicate (i - (rawParts v f).1.length - 1) '1' ++ (rawParts v f).1, ?_⟩
        show adjustInt (decide (v < 0)) i (rawParts v f).1 = _
        rw [adjustInt_lt _ _ _ hL]
        have hb : decide (v < 0) = true := by simp [hv]
        rw [hb, if_pos rfl]
        have hsp : i - (rawParts v f).1.length
            = (i - (rawParts v f).1.length - 1) + 1 := by omega
        rw [hsp, List.replicate_succ]
        rfl
      · refine ⟨t, ?_⟩
        show adjustInt (decide (v < 0)) i (rawParts v f).1 = _
        rw [adjustInt_eq _ _ _ hL, hcons]
    have hfull : (float_to_bin_str v i f).1 ++ (float_to_bin_str v i f).2
        = '1' :: (rest ++ (float_to_bin_str v i f).2) := by
      rw [hrest]
      rfl
    have hlenfull : ('1' :: (rest ++ (float_to_bin_str v i f).2)).length = i + f := by
      rw [← hfull, List.length_append, hilen]
      show i + (rawParts v f).2.length = i + f
      rw [hflen]
    have hbvfull : bitsVal ('1' :: (rest ++ (float_to_bin_str v i f).2))
        = (⌊v⌋ % 2 ^ i) * 2 ^ f + (⌊v * 2 ^ f⌋ - ⌊v⌋ * 2 ^ f) := by
      rw [← hfull, bitsVal_append]
      show bitsVal (float_to_bin_str v i f).1 * 2 ^ (rawParts v f).2.length
          + bitsVal (rawParts v f).2 = _
      rw [hflen, intPart_mod, hfracv]
    have hfl_lt : ⌊v⌋ < 0 := Int.floor_lt.mpr (by exact_mod_cast hv)
    have hfl_ge : -(2 ^ (i - 1)) ≤ ⌊v⌋ := by
      apply Int.le_floor.mpr
      push_cast
      exact hlo
    have hpw : (2:ℤ) ^ (i - 1) ≤ 2 ^ i := pow_le_pow_right₀ one_le_two (by omega)
    have hpw0 : (0:ℤ) ≤ 2 ^ (i - 1) := by positivity
    have hmod : ⌊v⌋ % 2 ^ i = ⌊v⌋ + 2 ^ i := by
      have e1 : (⌊v⌋ + 2 ^ i * 1) % (2:ℤ) ^ i = ⌊v⌋ % 2 ^ i :=
        Int.add_mul_emod_self_left _ _ _
      have e2 : (⌊v⌋ + 2 ^ i * 1) % (2:ℤ) ^ i = ⌊v⌋ + 2 ^ i * 1 :=
        Int.emod_eq_of_lt (by omega) (by omega)
      omega
    rw [hfull, twosComplementDecode_cons, if_pos rfl, hlenfull, hbvfull, hmod]
    congr 1
    push_cast
    rw [pow_add]
    ring
  · obtain ⟨hlenr, hbitsr, hfracv, hflen, _⟩ := rawParts_nonneg v f hv
    have hk : searchUp v 0 ≤ i - 1 := searchUp_le_of v (i - 1) hhi
    have hL : (rawParts v f).1.length < i := by omega
    obtain ⟨rest, hrest⟩ : ∃ rest, (float_to_bin_str v i f).1 = '0' :: rest := by
      refine ⟨List.replicate (i - (rawParts v f).1.length - 1) '0' ++ (rawParts v f).1, ?_⟩
      show adjustInt (decide (v < 0)) i (rawParts v f).1 = _
      rw [adjustInt_lt _ _ _ hL]
      have hb : decide (v < 0) = false := by simp [hv]
      rw [hb, if_neg (by simp)]
      have hsp : i - (rawParts v f).1.length
          = (i - (rawParts v f).1.length - 1) + 1 := by omega
      rw [hsp, List.replicate_succ]
      rfl
    have hfull : (float_to_bin_str v i f).1 ++ (float_to_bin_str v i f).2
        = '0' :: (rest ++ (float_to_bin_str v i f).2) := by
      rw [hrest]
      rfl
    have hlenfull : ('0' :: (rest ++ (float_to_bin_str v i f).2)).length = i + f := by
      rw [← hfull, List.length_append, hilen]
      show i + (rawParts v f).2.length = i + f
      rw [hflen]
    have hbvfull : bitsVal ('0' :: (rest ++ (float_to_bin_str v i f).2))
        = (⌊v⌋ % 2 ^ i) * 2 ^ f + (⌊v * 2 ^ f⌋ - ⌊v⌋ * 2 ^ f) := by
      rw [← hfull, bitsVal_append]
      show bitsVal (float_to_bin_str v i f).1 * 2 ^ (rawParts v f).2.length
          + bitsVal (rawParts v f).2 = _
      rw [hflen, intPart_mod, hfracv]
    have hfl_ge : 0 ≤ ⌊v⌋ := Int.le_floor.mpr (by exact_mod_cast not_lt.mp hv)
    have hpw : (2:ℤ) ^ (i - 1) ≤ 2 ^ i := pow_le_pow_right₀ one_le_two (by omega)
    have hfl_lt2 : ⌊v⌋ < 2 ^ i := by
      have hf1 : ⌊v⌋ < 2 ^ (i - 1) := by
        apply Int.floor_lt.mpr
        push_cast
        exact hhi
      omega
    have hmod : ⌊v⌋ % 2 ^ i = ⌊v⌋ := Int.emod_eq_of_lt hfl_ge hfl_lt2
    rw [hfull, twosComplementDecode_cons, if_neg (by decide), hbvfull, hmod]
    congr 1
    push_cast
    ring

theorem C1_witness :
    (1 ≤ 3 ∧ -((2:ℚ) ^ (3 - 1)) ≤ -5/2 ∧ (-5/2 : ℚ) < (2:ℚ) ^ (3 - 1))
  ∧ twosComplementDecode
        ((float_to_bin_str (-5/2 : ℚ) 3 1).1 ++ (float_to_bin_str (-5/2 : ℚ) 3 1).2) 1
      = (⌊(-5/2 : ℚ) * 2 ^ 1⌋ : ℚ) / 2 ^ 1 :=
  ⟨⟨by norm_num, by norm_num, by norm_num⟩,
   C1_round_trip (-5/2) 3 1 (by norm_num) (by norm_num) (by norm_num)⟩

end GenerateMappings
